import Mathlib

/-!
Shallow embedding of the `cocogh` GitHub content-collection library
(`github.go`) and proofs about its two public operations,
`GetFilePathsForRepositories` and `GetChangedFilePathsSince`.

The remote GitHub API is modelled as data passed to the embedded
functions:

* the GraphQL tree-query capability becomes an inductive response tree
  (`QTree`): the response of the root expression is the root node, and
  the entry returned for a sub-expression `expression ++ "/" ++ name`
  is stored as the `sub` field of the corresponding entry, so a node
  is exactly the map from expressions to entry lists restricted to the
  expressions the walker can reach;
* the REST commit capability becomes, per repository, the result of
  `ListCommits` (which may fail) carrying for each returned commit the
  result of the `GetCommit` detail call (which may fail too).

Errors are `String` messages; Go's `(value, error)` returns are
embedded as `Except String _` where the failing return always carries
a nil value, and as an explicit pair `_ × Option String` where the Go
code can return a non-zero partial value alongside the error.
-/

namespace Cocogh

/-- `Paths` from `github.go`: a collection of file paths that have been
added, removed, or modified. -/
structure Paths where
  Added : List String
  Removed : List String
  Modified : List String
deriving Repr, DecidableEq

/-- The zero value `Paths{}` of the Go struct. -/
def emptyPaths : Paths := ⟨[], [], []⟩

/-- `GitHubFilter` from `github.go`. -/
structure GitHubFilter where
  FilePath : String
  FileTypes : List String
deriving Repr, DecidableEq

/-- `GitHubConfig` from `github.go`. -/
structure GitHubConfig where
  Owner : String
  Repositories : List String
  DefaultBranch : String
  Filter : GitHubFilter
deriving Repr, DecidableEq

/-- One entry of `commitDetails.Files` in the GitHub commit-detail
response: the Go getters `GetFilename`, `GetPreviousFilename`,
`GetStatus` return the string or `""` when the field is absent, so
plain strings model them. -/
structure CommitFile where
  filename : String
  previousFilename : String
  status : String
deriving Repr, DecidableEq

/-- The commit data of one repository as the embedded commit capability
delivers it: the `ListCommits` call either fails or returns, for each
commit, the result of the `GetCommit` detail call, which either fails
or returns the commit's diff files. -/
def RepoCommitData : Type := Except String (List (Except String (List CommitFile)))

/-- `github.CommitsListOptions` restricted to the fields
`GetChangedFilePathsSince` sets: `Since` (an instant, in nanoseconds
since an arbitrary origin, as Go's `time.Time`/`time.Duration`
arithmetic is nanosecond-based), `Path` and `PerPage`. -/
structure CommitsListOptions where
  Since : Int
  Path : String
  PerPage : Int
deriving Repr, DecidableEq

/-- Go's `time.Hour` expressed in nanoseconds, the unit of
`time.Duration`. -/
def nanosPerHour : Int := 3600 * 1000000000

/-- Go's `strings.HasPrefix(s, pre)`: the byte sequence of `pre`
starts the byte sequence of `s`; on valid UTF-8 strings this is the
character-list prefix test. -/
def goHasPrefix (s pre : String) : Bool :=
  pre.data.isPrefixOf s.data

/-- Go's `strings.HasSuffix(s, post)`: the byte sequence of `post`
ends the byte sequence of `s`; on valid UTF-8 strings this is the
character-list suffix test. -/
def goHasSuffix (s post : String) : Bool :=
  post.data.isSuffixOf s.data

/-- The body of the switch of `getChangedFilePathsForRepo`
(github.go:358-374): one diff file's effect on the accumulated
`Paths`, guarded by `strings.HasPrefix(file.GetFilename(), directory)`. -/
def classifyFile (directory : String) (paths : Paths) (file : CommitFile) : Paths :=
  if goHasPrefix file.filename directory then
    match file.status with
    | "removed" => { paths with Removed := paths.Removed ++ [file.filename] }
    | "added" => { paths with Added := paths.Added ++ [file.filename] }
    | "modified" => { paths with Modified := paths.Modified ++ [file.filename] }
    | "changed" => { paths with Modified := paths.Modified ++ [file.filename] }
    | "renamed" =>
        { paths with Removed := paths.Removed ++ [file.previousFilename],
                     Added := paths.Added ++ [file.filename] }
    | "copied" => { paths with Added := paths.Added ++ [file.filename] }
    | _ => paths
  else paths

/-- The inner `for _, file := range commitDetails.Files` loop of
`getChangedFilePathsForRepo`. -/
def classifyFiles (directory : String) (files : List CommitFile) (paths : Paths) : Paths :=
  files.foldl (classifyFile directory) paths

/-- The `for _, commit := range commits` loop of
`getChangedFilePathsForRepo`: on a failing `GetCommit` call the Go code
returns the partially accumulated `paths` together with the error. -/
def processCommits (directory : String) :
    List (Except String (List CommitFile)) → Paths → Paths × Option String
  | [], paths => (paths, none)
  | Except.error e :: _, paths => (paths, some e)
  | Except.ok files :: rest, paths =>
      processCommits directory rest (classifyFiles directory files paths)

/-- `getChangedFilePathsForRepo` (github.go:342-378) for one
repository, over the embedded commit data. -/
def getChangedFilePathsForRepo (directory : String) (data : RepoCommitData) :
    Paths × Option String :=
  match data with
  | Except.error e => (emptyPaths, some e)
  | Except.ok commits => processCommits directory commits emptyPaths

/-- The `opt` value built by `GetChangedFilePathsSince`
(github.go:241-251): `dayToHour := 24 * hoursSince`, `specifiedTime :=
now.Add(time.Hour * time.Duration(-dayToHour))`, passed as the `Since`
option together with the configured path filter and page size 100. -/
def commitsListOptionsFor (cfg : GitHubConfig) (now hoursSince : Int) : CommitsListOptions :=
  let dayToHour := 24 * hoursSince
  let specifiedTime := now + nanosPerHour * (-dayToHour)
  { Since := specifiedTime, Path := cfg.Filter.FilePath, PerPage := 100 }

/-- The `for _, repo := range c.Configuration.Repositories` loop of
`GetChangedFilePathsSince` (github.go:255-263): on any repository
error, return `Paths{}` and the error; otherwise concatenate the three
lists repository by repository. -/
def changedPathsLoop (directory : String) (fetch : String → RepoCommitData) :
    List String → Paths → Paths × Option String
  | [], paths => (paths, none)
  | repo :: rest, paths =>
      match getChangedFilePathsForRepo directory (fetch repo) with
      | (_, some e) => (emptyPaths, some e)
      | (commitPaths, none) =>
          changedPathsLoop directory fetch rest
            ⟨paths.Added ++ commitPaths.Added,
             paths.Removed ++ commitPaths.Removed,
             paths.Modified ++ commitPaths.Modified⟩

/-- `GetChangedFilePathsSince` (github.go:238-266): the commit
capability is the function `fetch` from a repository name and the
commit-listing options to that repository's commit data, and `now` is
the instant `time.Now()` returned. -/
def GetChangedFilePathsSince (cfg : GitHubConfig)
    (fetch : String → CommitsListOptions → RepoCommitData)
    (now : Int) (hoursSince : Int) : Paths × Option String :=
  let opt := commitsListOptionsFor cfg now hoursSince
  changedPathsLoop cfg.Filter.FilePath (fun repo => fetch repo opt)
    cfg.Repositories emptyPaths

mutual
/-- The tree-query capability rooted at one expression: the GraphQL
query for that expression either fails or returns a list of entries
(`GHQueryForListFiles`, github.go:110-122). -/
inductive QTree : Type where
  | fail (e : String) : QTree
  | node (entries : List QEntry) : QTree

/-- One entry `{Name, Path, Type}` of a tree response; `sub` is the
response the capability would give for the child expression
`expression ++ "/" ++ name` (only consulted when `ty = "tree"`). -/
inductive QEntry : Type where
  | mk (name path ty : String) (sub : QTree) : QEntry
end

mutual
/-- `getFilePathsForRepo` (github.go:298-325): query the tree at the
expression, then walk the entries; any error at any depth aborts with
nil and that error. -/
def getFilePathsForRepo : QTree → Except String (List String)
  | QTree.fail e => Except.error e
  | QTree.node entries => getFilePathsForEntries entries

/-- The `for _, entry := range query.Repository.Object.Tree.Entries`
loop of `getFilePathsForRepo` (github.go:312-322): a blob contributes
its path, a tree entry contributes the recursive walk of its subtree,
any other entry is skipped. -/
def getFilePathsForEntries : List QEntry → Except String (List String)
  | [] => Except.ok []
  | QEntry.mk _ path ty sub :: rest =>
      if ty = "blob" then
        match getFilePathsForEntries rest with
        | Except.error e => Except.error e
        | Except.ok fs => Except.ok (path :: fs)
      else if ty = "tree" then
        match getFilePathsForRepo sub with
        | Except.error e => Except.error e
        | Except.ok subFiles =>
            match getFilePathsForEntries rest with
            | Except.error e => Except.error e
            | Except.ok fs => Except.ok (subFiles ++ fs)
      else getFilePathsForEntries rest
end

mutual
/-- Whether every tree query the walker issues on this tree succeeds
(subtrees of non-`"tree"` entries are never queried). -/
def hasNoFail : QTree → Bool
  | QTree.fail _ => false
  | QTree.node entries => hasNoFailEntries entries

/-- `hasNoFail` on an entry list. -/
def hasNoFailEntries : List QEntry → Bool
  | [] => true
  | QEntry.mk _ _ ty sub :: rest =>
      (if ty = "tree" then hasNoFail sub else true) && hasNoFailEntries rest
end

mutual
/-- The number of `"blob"` entries the walker can reach in a tree. -/
def countBlobs : QTree → Nat
  | QTree.fail _ => 0
  | QTree.node entries => countBlobsEntries entries

/-- `countBlobs` on an entry list. -/
def countBlobsEntries : List QEntry → Nat
  | [] => 0
  | QEntry.mk _ _ ty sub :: rest =>
      (if ty = "blob" then 1 else if ty = "tree" then countBlobs sub else 0)
        + countBlobsEntries rest
end

mutual
/-- Modelled from the spec: the depth-first path list
("result order follows the API's entry order at each level,
depth-first, with all of one subtree's files emitted contiguously").
Each entry contributes its paths as one contiguous block, blocks in
entry order. -/
def dfTree : QTree → List String
  | QTree.fail _ => []
  | QTree.node entries => dfEntries entries

/-- Modelled from the spec: concatenation of the per-entry
contributions, in entry order. -/
def dfEntries : List QEntry → List String
  | [] => []
  | entry :: rest => dfEntryPaths entry ++ dfEntries rest

/-- Modelled from the spec: one entry's contiguous contribution. -/
def dfEntryPaths : QEntry → List String
  | QEntry.mk _ path ty sub =>
      if ty = "blob" then [path] else if ty = "tree" then dfTree sub else []
end

/-- `hasFileType` (github.go:328-335): does `fileName` end with any of
the `fileTypes`? The Go loop returns `true` at the first matching
suffix. -/
def hasFileType (fileName : String) : List String → Bool
  | [] => false
  | fileType :: rest =>
      if goHasSuffix fileName fileType then true else hasFileType fileName rest

/-- The `for _, repo := range c.Configuration.Repositories` loop of
`GetFilePathsForRepositories` (github.go:187-193): walk each
repository's tree (the capability `treeOf` gives the response tree of
the repository at the expression `defaultBranch:filterPath`); any
failure aborts with nil and the error, otherwise concatenate. -/
def getFilePathsForRepos (treeOf : String → QTree) : List String → Except String (List String)
  | [] => Except.ok []
  | repo :: rest =>
      match getFilePathsForRepo (treeOf repo) with
      | Except.error e => Except.error e
      | Except.ok fs =>
          match getFilePathsForRepos treeOf rest with
          | Except.error e => Except.error e
          | Except.ok more => Except.ok (fs ++ more)

/-- The filtering stage of `GetFilePathsForRepositories`
(github.go:195-207): with no configured file types the aggregated list
is returned as is; otherwise keep exactly the files some file type
matches. -/
def pathFilter (fileTypes : List String) (files : List String) : List String :=
  if fileTypes.length = 0 then files
  else files.filter fun file => hasFileType file fileTypes

/-- `GetFilePathsForRepositories` (github.go:185-208). -/
def GetFilePathsForRepositories (cfg : GitHubConfig) (treeOf : String → QTree) :
    Except String (List String) :=
  match getFilePathsForRepos treeOf cfg.Repositories with
  | Except.error e => Except.error e
  | Except.ok files => Except.ok (pathFilter cfg.Filter.FileTypes files)

/-- The paths one diff file appends to the `Added` list in the switch
of `getChangedFilePathsForRepo`. -/
def addedPathsOf (directory : String) (file : CommitFile) : List String :=
  if goHasPrefix file.filename directory then
    match file.status with
    | "added" => [file.filename]
    | "renamed" => [file.filename]
    | "copied" => [file.filename]
    | _ => []
  else []

/-- The paths one diff file appends to the `Removed` list in the
switch of `getChangedFilePathsForRepo`. -/
def removedPathsOf (directory : String) (file : CommitFile) : List String :=
  if goHasPrefix file.filename directory then
    match file.status with
    | "removed" => [file.filename]
    | "renamed" => [file.previousFilename]
    | _ => []
  else []

/-- The paths one diff file appends to the `Modified` list in the
switch of `getChangedFilePathsForRepo`. -/
def modifiedPathsOf (directory : String) (file : CommitFile) : List String :=
  if goHasPrefix file.filename directory then
    match file.status with
    | "modified" => [file.filename]
    | "changed" => [file.filename]
    | _ => []
  else []

/-- All paths one diff file contributes to the three lists. -/
def contributedPaths (directory : String) (file : CommitFile) : List String :=
  removedPathsOf directory file ++ addedPathsOf directory file
    ++ modifiedPathsOf directory file

theorem hasFileType_eq_any (fileName : String) (fileTypes : List String) :
    hasFileType fileName fileTypes = fileTypes.any fun t => goHasSuffix fileName t := by
  induction fileTypes with
  | nil => rfl
  | cons t rest ih => by_cases h : goHasSuffix fileName t <;> simp [hasFileType, h, ih]

theorem classifyFile_decomp (d : String) (p : Paths) (f : CommitFile) :
    classifyFile d p f =
      ⟨p.Added ++ addedPathsOf d f, p.Removed ++ removedPathsOf d f,
       p.Modified ++ modifiedPathsOf d f⟩ := by
  unfold classifyFile addedPathsOf removedPathsOf modifiedPathsOf
  by_cases h : goHasPrefix f.filename d
  · simp only [h, if_true]
    split <;> (try (rename_i x heq; rw [heq])) <;> simp
  · simp [h]

/-- C2: under the configured path prefix, a "renamed" diff file sends
its previous filename to `Removed` and its new filename to `Added`,
and a "copied" diff file sends its filename to `Added` only; on a
single-commit repository, renaming "old.md" to "new.md" yields
removed=["old.md"], added=["new.md"], and copying to "new.md" yields
added=["new.md"] with nothing removed. -/
theorem classify_renamed_copied :
    (∀ (d : String) (p : Paths) (f : CommitFile),
        goHasPrefix f.filename d = true → f.status = "renamed" →
        classifyFile d p f =
          { p with Removed := p.Removed ++ [f.previousFilename],
                   Added := p.Added ++ [f.filename] }) ∧
    (∀ (d : String) (p : Paths) (f : CommitFile),
        goHasPrefix f.filename d = true → f.status = "copied" →
        classifyFile d p f = { p with Added := p.Added ++ [f.filename] }) ∧
    getChangedFilePathsForRepo ""
        (Except.ok [Except.ok [⟨"new.md", "old.md", "renamed"⟩]]) =
      (⟨["new.md"], ["old.md"], []⟩, none) ∧
    getChangedFilePathsForRepo ""
        (Except.ok [Except.ok [⟨"new.md", "", "copied"⟩]]) =
      (⟨["new.md"], [], []⟩, none) := by
  refine ⟨?_, ?_, by decide, by decide⟩ <;>
    · intro d p f hpre hst
      simp [classifyFile, hpre, hst]

/-- Witness for C2 at concrete inputs. -/
theorem classify_renamed_copied_witness :
    classifyFile "" emptyPaths ⟨"new.md", "old.md", "renamed"⟩ =
      ⟨["new.md"], ["old.md"], []⟩ ∧
    classifyFile "" emptyPaths ⟨"new.md", "", "copied"⟩ = ⟨["new.md"], [], []⟩ := by
  constructor
  · exact classify_renamed_copied.1 "" emptyPaths ⟨"new.md", "old.md", "renamed"⟩
      (by decide) rfl
  · exact classify_renamed_copied.2.1 "" emptyPaths ⟨"new.md", "", "copied"⟩
      (by decide) rfl

/-- C3: a diff file whose filename lacks the configured prefix changes
nothing; under the prefix, status "removed" appends to `Removed`,
"added" to `Added`, "modified" or "changed" to `Modified`, and any
status outside the six recognized ones changes nothing. -/
theorem classify_statuses :
    ∀ (d : String) (p : Paths) (f : CommitFile),
      (goHasPrefix f.filename d = false → classifyFile d p f = p) ∧
      (goHasPrefix f.filename d = true →
        (f.status = "removed" →
          classifyFile d p f = { p with Removed := p.Removed ++ [f.filename] }) ∧
        (f.status = "added" →
          classifyFile d p f = { p with Added := p.Added ++ [f.filename] }) ∧
        (f.status = "modified" ∨ f.status = "changed" →
          classifyFile d p f = { p with Modified := p.Modified ++ [f.filename] }) ∧
        (f.status ∉ ["removed", "added", "modified", "changed", "renamed", "copied"] →
          classifyFile d p f = p)) := by
  intro d p f
  constructor
  · intro h
    simp [classifyFile, h]
  · intro hpre
    refine ⟨fun hst => by simp [classifyFile, hpre, hst],
            fun hst => by simp [classifyFile, hpre, hst],
            fun hst => by rcases hst with hst | hst <;> simp [classifyFile, hpre, hst],
            fun hst => ?_⟩
    simp only [List.mem_cons, List.not_mem_nil, or_false, not_or] at hst
    obtain ⟨h1, h2, h3, h4, h5, h6⟩ := hst
    simp only [classifyFile, hpre, if_true]

/-- Witness for C3 at concrete inputs covering every case. -/
theorem classify_statuses_witness :
    classifyFile "docs/" emptyPaths ⟨"other/a.md", "", "added"⟩ = emptyPaths ∧
    classifyFile "" emptyPaths ⟨"a.md", "", "removed"⟩ = ⟨[], ["a.md"], []⟩ ∧
    classifyFile "" emptyPaths ⟨"a.md", "", "added"⟩ = ⟨["a.md"], [], []⟩ ∧
    classifyFile "" emptyPaths ⟨"a.md", "", "modified"⟩ = ⟨[], [], ["a.md"]⟩ ∧
    classifyFile "" emptyPaths ⟨"a.md", "", "changed"⟩ = ⟨[], [], ["a.md"]⟩ ∧
    classifyFile "" emptyPaths ⟨"a.md", "", "unchanged"⟩ = emptyPaths := by
  refine ⟨(classify_statuses "docs/" emptyPaths ⟨"other/a.md", "", "added"⟩).1 (by decide),
    ((classify_statuses "" emptyPaths ⟨"a.md", "", "removed"⟩).2 (by decide)).1 rfl,
    (((classify_statuses "" emptyPaths ⟨"a.md", "", "added"⟩).2 (by decide)).2).1 rfl,
    ((((classify_statuses "" emptyPaths ⟨"a.md", "", "modified"⟩).2 (by decide)).2).2).1
      (Or.inl rfl),
    ((((classify_statuses "" emptyPaths ⟨"a.md", "", "changed"⟩).2 (by decide)).2).2).1
      (Or.inr rfl),
    (((((classify_statuses "" emptyPaths ⟨"a.md", "", "unchanged"⟩).2
      (by decide)).2).2).2) (by decide)⟩

/-- C6: with an empty configured suffix set, the filter stage of
`GetFilePathsForRepositories` is the identity: the call returns the
aggregated path list (or the aggregation error) completely
unchanged. -/
theorem emptyFileTypes_identity :
    ∀ (cfg : GitHubConfig) (treeOf : String → QTree), cfg.Filter.FileTypes = [] →
      GetFilePathsForRepositories cfg treeOf = getFilePathsForRepos treeOf cfg.Repositories := by
  intro cfg treeOf h
  unfold GetFilePathsForRepositories pathFilter
  rw [h]
  cases getFilePathsForRepos treeOf cfg.Repositories <;> simp

/-- Witness for C6: a two-repository configuration with no file types
returns the concatenated walks unchanged. -/
theorem emptyFileTypes_identity_witness :
    GetFilePathsForRepositories ⟨"o", ["r1", "r2"], "main", ⟨"", []⟩⟩
        (fun repo => if repo = "r1"
          then QTree.node [QEntry.mk "a" "a.md" "blob" (QTree.node [])]
          else QTree.node [QEntry.mk "b" "b.txt" "blob" (QTree.node [])]) =
      getFilePathsForRepos
        (fun repo => if repo = "r1"
          then QTree.node [QEntry.mk "a" "a.md" "blob" (QTree.node [])]
          else QTree.node [QEntry.mk "b" "b.txt" "blob" (QTree.node [])])
        ["r1", "r2"] :=
  emptyFileTypes_identity ⟨"o", ["r1", "r2"], "main", ⟨"", []⟩⟩ _ rfl

/-- C7: with a non-empty suffix set, the filter stage keeps exactly
the input paths ending in at least one suffix, in input order (a
sublist of the input); `pathFilter [".md"] ["a.md", "b.txt"] =
["a.md"]`. -/
theorem pathFilter_nonempty_filters :
    (∀ (suffixes paths : List String), suffixes ≠ [] →
        pathFilter suffixes paths =
          paths.filter (fun p => suffixes.any fun s => goHasSuffix p s) ∧
        List.Sublist (pathFilter suffixes paths) paths) ∧
    pathFilter [".md"] ["a.md", "b.txt"] = ["a.md"] := by
  constructor
  · intro suffixes paths h
    have hlen : ¬ suffixes.length = 0 := by simpa [List.length_eq_zero] using h
    constructor
    · unfold pathFilter
      rw [if_neg hlen]
      simp only [hasFileType_eq_any]
    · unfold pathFilter
      rw [if_neg hlen]
      exact List.filter_sublist paths
  · decide

/-- Witness for C7 at the spec's own example. -/
theorem pathFilter_nonempty_filters_witness :
    pathFilter [".md"] ["a.md", "b.txt"] =
      List.filter (fun p => List.any [".md"] fun s => goHasSuffix p s) ["a.md", "b.txt"] ∧
    List.Sublist (pathFilter [".md"] ["a.md", "b.txt"]) ["a.md", "b.txt"] :=
  (pathFilter_nonempty_filters.1 [".md"] ["a.md", "b.txt"] (by decide))

/-- C1: the cutoff `GetChangedFilePathsSince` passes as the `Since`
option is `now` minus `hoursSince` times TWENTY-FOUR hours (the code
multiplies the hour count by 24 via `dayToHour := 24 * hoursSince`),
not `now` minus `hoursSince` hours; the facade does pass exactly the
computed options to every per-repository commit listing. -/
theorem cutoff_subtracts_24_hours :
    (∀ (cfg : GitHubConfig) (now hoursSince : Int),
        (commitsListOptionsFor cfg now hoursSince).Since =
          now - nanosPerHour * (24 * hoursSince)) ∧
    (∀ (cfg : GitHubConfig) (fetch : String → CommitsListOptions → RepoCommitData)
        (now hoursSince : Int),
        GetChangedFilePathsSince cfg fetch now hoursSince =
          changedPathsLoop cfg.Filter.FilePath
            (fun repo => fetch repo (commitsListOptionsFor cfg now hoursSince))
            cfg.Repositories emptyPaths) ∧
    (∀ (cfg : GitHubConfig) (now : Int),
        (commitsListOptionsFor cfg now 1).Since ≠ now - nanosPerHour * 1) := by
  refine ⟨fun cfg now hoursSince => ?_, fun cfg fetch now hoursSince => rfl,
          fun cfg now => ?_⟩
  · unfold commitsListOptionsFor
    ring
  · intro heq
    simp only [commitsListOptionsFor, nanosPerHour] at heq
    omega

theorem getFilePathsForRepos_fail (treeOf : String → QTree) :
    ∀ (pre : List String) (r : String) (post : List String) (e : String),
      (∀ r' ∈ pre, ∃ l, getFilePathsForRepo (treeOf r') = Except.ok l) →
      getFilePathsForRepo (treeOf r) = Except.error e →
      getFilePathsForRepos treeOf (pre ++ r :: post) = Except.error e := by
  intro pre
  induction pre with
  | nil =>
      intro r post e _ hr
      simp [getFilePathsForRepos, hr]
  | cons a rest ih =>
      intro r post e hpre hr
      obtain ⟨l, hl⟩ := hpre a (by simp)
      have htail := ih r post e (fun r' hmem => hpre r' (by simp [hmem])) hr
      simp [getFilePathsForRepos, hl, htail]

theorem changedPathsLoop_fail (directory : String) (fetch : String → RepoCommitData) :
    ∀ (pre : List String) (r : String) (post : List String) (e : String) (acc : Paths),
      (∀ r' ∈ pre, (getChangedFilePathsForRepo directory (fetch r')).2 = none) →
      (getChangedFilePathsForRepo directory (fetch r)).2 = some e →
      changedPathsLoop directory fetch (pre ++ r :: post) acc = (emptyPaths, some e) := by
  intro pre
  induction pre with
  | nil =>
      intro r post e acc _ hr
      rcases hgc : getChangedFilePathsForRepo directory (fetch r) with ⟨P, err⟩
      rw [hgc] at hr
      simp only at hr
      subst hr
      simp [changedPathsLoop, hgc]
  | cons a rest ih =>
      intro r post e acc hpre hr
      rcases hga : getChangedFilePathsForRepo directory (fetch a) with ⟨Pa, erra⟩
      have hnone : erra = none := by
        have := hpre a (by simp)
        rw [hga] at this
        simpa using this
      subst hnone
      have htail := ih r post e
        ⟨acc.Added ++ Pa.Added, acc.Removed ++ Pa.Removed, acc.Modified ++ Pa.Modified⟩
        (fun r' hmem => hpre r' (by simp [hmem])) hr
      simp only [List.cons_append, changedPathsLoop, hga]
      exact htail

/-- C5: both public operations are fail-fast and atomic. If walking
any repository's tree fails, `GetFilePathsForRepositories` returns the
underlying error unchanged and no path list; if listing or detailing
commits of any repository fails, `GetChangedFilePathsSince` returns
the empty `Paths{}` aggregate together with the underlying error
unchanged, discarding the repositories already processed. -/
theorem fail_fast_atomic :
    (∀ (cfg : GitHubConfig) (treeOf : String → QTree) (pre : List String) (r : String)
        (post : List String) (e : String),
        cfg.Repositories = pre ++ r :: post →
        (∀ r' ∈ pre, ∃ l, getFilePathsForRepo (treeOf r') = Except.ok l) →
        getFilePathsForRepo (treeOf r) = Except.error e →
        GetFilePathsForRepositories cfg treeOf = Except.error e) ∧
    (∀ (cfg : GitHubConfig) (fetch : String → CommitsListOptions → RepoCommitData)
        (now hoursSince : Int) (pre : List String) (r : String) (post : List String)
        (e : String),
        cfg.Repositories = pre ++ r :: post →
        (∀ r' ∈ pre,
          (getChangedFilePathsForRepo cfg.Filter.FilePath
            (fetch r' (commitsListOptionsFor cfg now hoursSince))).2 = none) →
        (getChangedFilePathsForRepo cfg.Filter.FilePath
          (fetch r (commitsListOptionsFor cfg now hoursSince))).2 = some e →
        GetChangedFilePathsSince cfg fetch now hoursSince = (⟨[], [], []⟩, some e)) := by
  constructor
  · intro cfg treeOf pre r post e hrepos hpre hr
    unfold GetFilePathsForRepositories
    rw [hrepos, getFilePathsForRepos_fail treeOf pre r post e hpre hr]
  · intro cfg fetch now hoursSince pre r post e hrepos hpre hr
    unfold GetChangedFilePathsSince
    rw [hrepos]
    exact changedPathsLoop_fail cfg.Filter.FilePath _ pre r post e emptyPaths hpre hr

/-- Witness for C5: a first repository that succeeds followed by one
whose query fails makes both facades return exactly the underlying
error with no partial data. -/
theorem fail_fast_atomic_witness :
    GetFilePathsForRepositories ⟨"o", ["r1", "r2"], "main", ⟨"", []⟩⟩
        (fun repo => if repo = "r1"
          then QTree.node [QEntry.mk "a" "a.md" "blob" (QTree.node [])]
          else QTree.fail "boom") =
      Except.error "boom" ∧
    GetChangedFilePathsSince ⟨"o", ["r1", "r2"], "main", ⟨"", []⟩⟩
        (fun repo _ => if repo = "r1"
          then Except.ok [Except.ok [(⟨"a.md", "", "added"⟩ : CommitFile)]]
          else Except.error "kaput")
        0 24 =
      (⟨[], [], []⟩, some "kaput") := by
  constructor
  · exact fail_fast_atomic.1 ⟨"o", ["r1", "r2"], "main", ⟨"", []⟩⟩ _
      ["r1"] "r2" [] "boom" rfl
      (by intro r' hmem
          simp only [List.mem_singleton] at hmem
          subst hmem
          exact ⟨["a.md"], rfl⟩)
      rfl
  · exact fail_fast_atomic.2 ⟨"o", ["r1", "r2"], "main", ⟨"", []⟩⟩ _ 0 24
      ["r1"] "r2" [] "kaput" rfl
      (by intro r' hmem
          simp only [List.mem_singleton] at hmem
          subst hmem
          rfl)
      rfl

mutual
theorem getFilePathsForRepo_eq_dfTree :
    (t : QTree) → hasNoFail t = true → getFilePathsForRepo t = Except.ok (dfTree t)
  | QTree.fail _, h => by simp [hasNoFail] at h
  | QTree.node entries, h => by
      rw [getFilePathsForRepo, dfTree]
      exact getFilePathsForEntries_eq_dfEntries entries (by rwa [hasNoFail] at h)

theorem getFilePathsForEntries_eq_dfEntries :
    (entries : List QEntry) → hasNoFailEntries entries = true →
      getFilePathsForEntries entries = Except.ok (dfEntries entries)
  | [], _ => rfl
  | QEntry.mk n p ty sub :: rest, h => by
      have hsplit : (if ty = "tree" then hasNoFail sub else true) = true ∧
          hasNoFailEntries rest = true := by
        rw [hasNoFailEntries, Bool.and_eq_true] at h
        exact h
      have hrest := getFilePathsForEntries_eq_dfEntries rest hsplit.2
      by_cases hb : ty = "blob"
      · simp [getFilePathsForEntries, dfEntries, dfEntryPaths, hb, hrest]
      · by_cases ht : ty = "tree"
        · have hsub := getFilePathsForRepo_eq_dfTree sub (by
            have := hsplit.1
            rwa [if_pos ht] at this)
          simp [getFilePathsForEntries, dfEntries, dfEntryPaths, hb, ht, hrest, hsub]
        · simp [getFilePathsForEntries, dfEntries, dfEntryPaths, hb, ht, hrest]
end

mutual
theorem dfTree_length_eq_countBlobs :
    (t : QTree) → (dfTree t).length = countBlobs t
  | QTree.fail _ => rfl
  | QTree.node entries => by
      rw [dfTree, countBlobs]
      exact dfEntries_length_eq_countBlobs entries

theorem dfEntries_length_eq_countBlobs :
    (entries : List QEntry) → (dfEntries entries).length = countBlobsEntries entries
  | [] => rfl
  | QEntry.mk n p ty sub :: rest => by
      have hrest := dfEntries_length_eq_countBlobs rest
      have hsub := dfTree_length_eq_countBlobs sub
      by_cases hb : ty = "blob"
      · simp [dfEntries, dfEntryPaths, countBlobsEntries, hb, hrest, Nat.add_comm]
      · by_cases ht : ty = "tree"
        · simp [dfEntries, dfEntryPaths, countBlobsEntries, hb, ht, hrest, hsub]
        · simp [dfEntries, dfEntryPaths, countBlobsEntries, hb, ht, hrest]
end

/-- C4: on a tree all of whose reachable queries succeed, the walker
returns one path per reachable `"blob"` entry — exactly `countBlobs`
many, at any nesting depth — and an empty root response yields the
empty path list with no error. -/
theorem walker_returns_one_path_per_blob :
    (∀ t : QTree, hasNoFail t = true →
        ∃ l, getFilePathsForRepo t = Except.ok l ∧ l.length = countBlobs t) ∧
    getFilePathsForRepo (QTree.node []) = Except.ok [] := by
  constructor
  · intro t h
    exact ⟨dfTree t, getFilePathsForRepo_eq_dfTree t h, dfTree_length_eq_countBlobs t⟩
  · rfl

/-- Witness for C4 on a concrete three-blob, depth-two tree. -/
theorem walker_returns_one_path_per_blob_witness :
    hasNoFail (QTree.node [QEntry.mk "a" "a.md" "blob" (QTree.node []),
      QEntry.mk "d" "d" "tree" (QTree.node [QEntry.mk "c" "d/c.md" "blob" (QTree.node []),
        QEntry.mk "e" "d/e.md" "blob" (QTree.node [])])]) = true ∧
    ∃ l, getFilePathsForRepo (QTree.node [QEntry.mk "a" "a.md" "blob" (QTree.node []),
      QEntry.mk "d" "d" "tree" (QTree.node [QEntry.mk "c" "d/c.md" "blob" (QTree.node []),
        QEntry.mk "e" "d/e.md" "blob" (QTree.node [])])]) = Except.ok l ∧
      l.length = countBlobs (QTree.node [QEntry.mk "a" "a.md" "blob" (QTree.node []),
        QEntry.mk "d" "d" "tree" (QTree.node [QEntry.mk "c" "d/c.md" "blob" (QTree.node []),
          QEntry.mk "e" "d/e.md" "blob" (QTree.node [])])]) :=
  ⟨by decide, walker_returns_one_path_per_blob.1 _ (by decide)⟩

/-- C9: on a tree all of whose reachable queries succeed, the walker's
output is exactly the depth-first concatenation of per-entry
contributions in API entry order, each subtree's paths contiguous
before the next sibling's, with no sorting. -/
theorem walker_depth_first_order :
    (∀ t : QTree, hasNoFail t = true → getFilePathsForRepo t = Except.ok (dfTree t)) ∧
    (∀ (entry : QEntry) (rest : List QEntry),
        dfEntries (entry :: rest) = dfEntryPaths entry ++ dfEntries rest) := by
  constructor
  · exact getFilePathsForRepo_eq_dfTree
  · intro entry rest
    rfl

/-- Witness for C9 on a concrete nested tree. -/
theorem walker_depth_first_order_witness :
    getFilePathsForRepo (QTree.node [QEntry.mk "d" "d" "tree"
        (QTree.node [QEntry.mk "c" "d/c.md" "blob" (QTree.node [])]),
      QEntry.mk "a" "a.md" "blob" (QTree.node [])]) =
      Except.ok (dfTree (QTree.node [QEntry.mk "d" "d" "tree"
        (QTree.node [QEntry.mk "c" "d/c.md" "blob" (QTree.node [])]),
      QEntry.mk "a" "a.md" "blob" (QTree.node [])])) :=
  walker_depth_first_order.1 _ (by decide)

/-- C10: an entry whose type is neither `"blob"` nor `"tree"` (for
example a submodule `"commit"` entry) contributes nothing, triggers no
recursive query (its subtree may even be a failing one), and never
causes an error: the walk of the remaining entries is unchanged. -/
theorem walker_skips_unknown_entry_types :
    ∀ (n p ty : String) (sub : QTree) (rest : List QEntry),
      ¬ ty = "blob" → ¬ ty = "tree" →
      getFilePathsForEntries (QEntry.mk n p ty sub :: rest) =
        getFilePathsForEntries rest := by
  intro n p ty sub rest h1 h2
  simp [getFilePathsForEntries, h1, h2]

/-- Witness for C10: a submodule entry whose (never queried) subtree
fails is skipped without error. -/
theorem walker_skips_unknown_entry_types_witness :
    getFilePathsForEntries
        [QEntry.mk "m" "m" "commit" (QTree.fail "never queried")] =
      getFilePathsForEntries [] :=
  walker_skips_unknown_entry_types "m" "m" "commit" (QTree.fail "never queried") []
    (by decide) (by decide)

/-- C8 counterexample: a repository with two commits touching the same
file — first "added", then "modified" — puts "a.md" into both the
`Added` and the `Modified` sequence of one repository's `Paths`. -/
theorem repo_partition_counterexample :
    "a.md" ∈ (getChangedFilePathsForRepo ""
        (Except.ok [Except.ok [⟨"a.md", "", "added"⟩],
                    Except.ok [⟨"a.md", "", "modified"⟩]])).1.Added ∧
    "a.md" ∈ (getChangedFilePathsForRepo ""
        (Except.ok [Except.ok [⟨"a.md", "", "added"⟩],
                    Except.ok [⟨"a.md", "", "modified"⟩]])).1.Modified := by
  decide

theorem classifyFiles_decomp (d : String) (files : List CommitFile) (p : Paths) :
    classifyFiles d files p =
      ⟨p.Added ++ files.flatMap (addedPathsOf d),
       p.Removed ++ files.flatMap (removedPathsOf d),
       p.Modified ++ files.flatMap (modifiedPathsOf d)⟩ := by
  induction files generalizing p with
  | nil => simp [classifyFiles]
  | cons f rest ih =>
      have hstep : classifyFiles d (f :: rest) p = classifyFiles d rest (classifyFile d p f) :=
        rfl
      rw [hstep, ih, classifyFile_decomp]
      simp [List.flatMap_cons, List.append_assoc]

theorem count_contributedPaths (d : String) (files : List CommitFile) (s : String) :
    (files.flatMap (contributedPaths d)).count s =
      (files.flatMap (removedPathsOf d)).count s +
        (files.flatMap (addedPathsOf d)).count s +
        (files.flatMap (modifiedPathsOf d)).count s := by
  induction files with
  | nil => rfl
  | cons f rest ih =>
      simp only [List.flatMap_cons, List.count_append, contributedPaths, ih]
      omega

/-- C8 (amended): for the contribution of a single commit whose diff
contributes each path at most once — as the source API guarantees by
listing one status per file per commit — every given path appears in
at most one of the three sequences; across several commits of one
repository the same path may appear in several sequences (see the
counterexample). -/
theorem single_commit_partition_disjoint :
    ∀ (directory : String) (files : List CommitFile),
      (files.flatMap (contributedPaths directory)).Nodup →
      ∀ s : String,
        ¬ (s ∈ (getChangedFilePathsForRepo directory
                  (Except.ok [Except.ok files])).1.Added ∧
           s ∈ (getChangedFilePathsForRepo directory
                  (Except.ok [Except.ok files])).1.Removed) ∧
        ¬ (s ∈ (getChangedFilePathsForRepo directory
                  (Except.ok [Except.ok files])).1.Added ∧
           s ∈ (getChangedFilePathsForRepo directory
                  (Except.ok [Except.ok files])).1.Modified) ∧
        ¬ (s ∈ (getChangedFilePathsForRepo directory
                  (Except.ok [Except.ok files])).1.Removed ∧
           s ∈ (getChangedFilePathsForRepo directory
                  (Except.ok [Except.ok files])).1.Modified) := by
  intro d files hnd s
  have hres : getChangedFilePathsForRepo d (Except.ok [Except.ok files]) =
      (classifyFiles d files emptyPaths, none) := rfl
  have hdecomp := classifyFiles_decomp d files emptyPaths
  have hcount := count_contributedPaths d files s
  have hle := List.nodup_iff_count_le_one.mp hnd s
  rw [hres]
  rw [hdecomp]
  simp only [emptyPaths, List.nil_append]
  refine ⟨fun hc => ?_, fun hc => ?_, fun hc => ?_⟩
  · have h1 := List.count_pos_iff.mpr hc.1
    have h2 := List.count_pos_iff.mpr hc.2
    omega
  · have h1 := List.count_pos_iff.mpr hc.1
    have h2 := List.count_pos_iff.mpr hc.2
    omega
  · have h1 := List.count_pos_iff.mpr hc.1
    have h2 := List.count_pos_iff.mpr hc.2
    omega

/-- Witness for the amended C8 on a single renamed file: "old.md" sits
only in `Removed`, in none of the other sequences. -/
theorem single_commit_partition_disjoint_witness :
    ¬ ("old.md" ∈ (getChangedFilePathsForRepo ""
          (Except.ok [Except.ok [⟨"new.md", "old.md", "renamed"⟩]])).1.Added ∧
       "old.md" ∈ (getChangedFilePathsForRepo ""
          (Except.ok [Except.ok [⟨"new.md", "old.md", "renamed"⟩]])).1.Removed) ∧
    ¬ ("old.md" ∈ (getChangedFilePathsForRepo ""
          (Except.ok [Except.ok [⟨"new.md", "old.md", "renamed"⟩]])).1.Added ∧
       "old.md" ∈ (getChangedFilePathsForRepo ""
          (Except.ok [Except.ok [⟨"new.md", "old.md", "renamed"⟩]])).1.Modified) ∧
    ¬ ("old.md" ∈ (getChangedFilePathsForRepo ""
          (Except.ok [Except.ok [⟨"new.md", "old.md", "renamed"⟩]])).1.Removed ∧
       "old.md" ∈ (getChangedFilePathsForRepo ""
          (Except.ok [Except.ok [⟨"new.md", "old.md", "renamed"⟩]])).1.Modified) :=
  single_commit_partition_disjoint "" [⟨"new.md", "old.md", "renamed"⟩] (by decide) "old.md"

end Cocogh
